import Mathlib

/-!
Verification of the beam-search decoding core of the repository
(`graph_augmented_sum/model/beam_search.py`).

Modelling conventions:
* Python floats are modelled as exact rationals (`ℚ`).
* Token ids are `Int`, token sequences `List Int`.
* Tensors are modelled as (nested) lists of rationals: a vector is
  `List ℚ`, a matrix `List (List ℚ)`, etc.  `torch.stack(xs, dim=1)`
  on a list of matrices is the transpose-like regrouping implemented by
  `stack_dim1` below; `torch.stack(xs, dim=0)` on vectors is just the list
  of the vectors.
* Python code that can raise (`list[-1]` on an empty list, `list[0]` on an
  empty list, out-of-range indexing, unpacking a 3-tuple into 4 names) is
  modelled with `Option`: `none` is "the call raises".
* The decoder state carried in a hypothesis' `hists` field is opaque to the
  beam logic, so `_Hypothesis` is polymorphic in the state type `σ`; the
  packing / unpacking functions instantiate it with the concrete LSTM
  (3-part) and single-tensor (T5) conventions.
-/

namespace BeamSearch

/-- Model of `_Hypothesis.__init__`: one candidate partial sequence with its
cumulative log probability, decoder state, attention history and coverage. -/
structure _Hypothesis (σ : Type) where
  sequence : List Int
  logprob : ℚ
  hists : σ
  attns : List (List ℚ)
  coverage : Option (List ℚ)
deriving DecidableEq

/-- Model of `_Hypothesis.extend_k`: one child per `(token, logprob)` pair of
`zip(topk, logprobs)`; child `i` appends token `i` to the sequence and scores
`self.logprob + logprobs[i] - diverse * i`.  With `attn = None` the children
get an empty attention history and the parent's coverage unchanged; with an
attention row they get `self.attns + [attn]` and coverage accumulated
elementwise (first touch: the attention row itself). -/
def _Hypothesis.extend_k (self : _Hypothesis σ) (topk : List Int)
    (logprobs : List ℚ) (hists : σ) (attn : Option (List ℚ)) (diverse : ℚ) :
    List (_Hypothesis σ) :=
  let ac : List (List ℚ) × Option (List ℚ) :=
    match attn with
    | none => ([], self.coverage)
    | some a =>
      (self.attns ++ [a],
       match self.coverage with
       | none => some a
       | some c => some (List.zipWith (fun x y => x + y) c a))
  ((topk.zip logprobs).enum).map (fun p =>
    { sequence := self.sequence ++ [p.2.1]
      logprob := self.logprob + p.2.2 - diverse * (p.1 : ℚ)
      hists := hists
      attns := ac.1
      coverage := ac.2 })

/-- The plain-mean normalized score `logprob / len(sequence)`. -/
def mean_key (h : _Hypothesis σ) : ℚ := h.logprob / (h.sequence.length : ℚ)

/-- Model of `_Hypothesis.__lt__`: note the inversion in the source,
`self < other` holds iff `other`'s normalized score is BELOW `self`'s
(so that ascending sorts produce best-first order). -/
def _Hypothesis.lt (self other : _Hypothesis σ) : Bool :=
  decide (mean_key other < mean_key self)

/-- Model of `init_beam`. -/
def init_beam (start : Int) (hists : σ) : List (_Hypothesis σ) :=
  [⟨[start], 0, hists, [], none⟩]

/-- Model of `create_beam`. -/
def create_beam (tok : List Int) (lp : List ℚ) (hists : σ) :
    List (_Hypothesis σ) :=
  (tok.zip lp).map (fun p => ⟨[p.1], p.2, hists, [], none⟩)

/-- Model of `_has_repeat_tri`: collect every contiguous trigram
`grams[i:i+3]` for `i < len(grams) - 2` and report whether some trigram
occurs more than once (`not all(cnt[g] <= 1)`). -/
def _has_repeat_tri (grams : List Int) : Bool :=
  let tri_grams := (List.range (grams.length - 2)).map
    (fun i => (grams.drop i).take 3)
  !(tri_grams.all (fun g => tri_grams.count g ≤ 1))

/-- The Wu penalty `length_wu(cur_len, alpha) = ((5 + cur_len) / 6.0) ** alpha` raised to the
10th power, at the call site's `alpha = 0.9`:
`(((5+len)/6) ** 0.9) ** 10 = ((5+len)/6) ** 9`, a rational.  The real-valued
Wu penalty itself is irrational; for sorting only comparisons of
`logprob / length_wu(len, 0.9)` matter, and those are decided exactly through
this 10th power (see `wu_key_ge`). -/
def length_wu_pow10 (cur_len : Nat) : ℚ := (((5 : ℚ) + (cur_len : ℚ)) / 6) ^ 9

/-- Decides `a.logprob / length_wu(len a, 0.9) ≥ b.logprob / length_wu(len b, 0.9)`
exactly.  Both penalties are positive reals, so the comparison is equivalent to
`a.logprob * w_b ≥ b.logprob * w_a` (`w_x` the penalty of `x`), which after
sign analysis is decided by comparing 10th powers, all rational. -/
def wu_key_ge (a b : _Hypothesis σ) : Bool :=
  let A := a.logprob
  let B := b.logprob
  let WA := length_wu_pow10 a.sequence.length
  let WB := length_wu_pow10 b.sequence.length
  if 0 ≤ A then
    if B ≤ 0 then true
    else decide (B ^ 10 * WA ≤ A ^ 10 * WB)
  else
    if 0 ≤ B then false
    else decide (A ^ 10 * WB ≤ B ^ 10 * WA)

/-- Descending comparison by the plain-mean normalized score, used for the
`sorted(..., reverse=True, key=lambda h: h.logprob/len(h.sequence))` calls. -/
def mean_key_ge (a b : _Hypothesis σ) : Bool :=
  decide (mean_key b ≤ mean_key a)

/-- The repetition sentinel `-1e9`. -/
def sentinel : ℚ := -(10 ^ 9 : ℚ)

/-- The `# ensure beam size` padding loop shared by both cleaning variants:
`while len(new_beam) < beam_size: new_beam.append(new_beam[0])`.
Raises (`none`) when the beam is empty and needs padding. -/
def pad_new_beam (beam_size : Nat) (nb : List (_Hypothesis σ)) :
    Option (List (_Hypothesis σ)) :=
  if beam_size ≤ nb.length then some nb
  else
    match nb with
    | [] => none
    | h0 :: _ => some (nb ++ List.replicate (beam_size - nb.length) h0)

/-- The selection loop of `_clean_beam` over the already-sorted candidate
list: flag repeat-trigram candidates with the sentinel score (they still
participate), promote candidates ending in `end_tok` to `finished` with the
end token stripped, put the others into the new beam, `break` as soon as the
new beam reaches `beam_size`; on exhaustion (`for ... else`) pad the beam. -/
def clean_loop (end_tok : Int) (beam_size : Nat) (remove_tri : Bool) :
    List (_Hypothesis σ) → List (_Hypothesis σ) → List (_Hypothesis σ) →
    Option (List (_Hypothesis σ) × List (_Hypothesis σ))
  | [], finished, nb =>
    match pad_new_beam beam_size nb with
    | none => none
    | some nb2 => some (finished, nb2)
  | h :: rest, finished, nb =>
    let h2 := if remove_tri && _has_repeat_tri h.sequence then
        { h with logprob := sentinel } else h
    match h2.sequence.getLast? with
    | none => none
    | some t =>
      let fb :=
        if t = end_tok then
          (finished ++ [⟨h2.sequence.dropLast, h2.logprob, h2.hists,
                         h2.attns, h2.coverage⟩], nb)
        else (finished, nb ++ [h2])
      if fb.2.length = beam_size then some fb
      else clean_loop end_tok beam_size remove_tri rest fb.1 fb.2

/-- The selection loop of `_clean_beam_cnn`: same shape as `clean_loop`, but a
repeat-trigram candidate is skipped outright (`continue`), and the finished
hypothesis is rebuilt without the coverage argument (it defaults to `None`). -/
def clean_loop_cnn (end_tok : Int) (beam_size : Nat) (remove_tri : Bool) :
    List (_Hypothesis σ) → List (_Hypothesis σ) → List (_Hypothesis σ) →
    Option (List (_Hypothesis σ) × List (_Hypothesis σ))
  | [], finished, nb =>
    match pad_new_beam beam_size nb with
    | none => none
    | some nb2 => some (finished, nb2)
  | h :: rest, finished, nb =>
    if remove_tri && _has_repeat_tri h.sequence then
      clean_loop_cnn end_tok beam_size remove_tri rest finished nb
    else
      match h.sequence.getLast? with
      | none => none
      | some t =>
        let fb :=
          if t = end_tok then
            (finished ++ [⟨h.sequence.dropLast, h.logprob, h.hists,
                           h.attns, none⟩], nb)
          else (finished, nb ++ [h])
        if fb.2.length = beam_size then some fb
        else clean_loop_cnn end_tok beam_size remove_tri rest fb.1 fb.2

/-- Model of `_clean_beam`: sort the candidate pool descending by the
Wu-normalized key `logprob / length_wu(len, alpha=0.9)`, run the selection
loop, then re-sort the finished list descending by the plain-mean key. -/
def _clean_beam (finished beam : List (_Hypothesis σ)) (end_tok : Int)
    (beam_size : Nat) (remove_tri : Bool) :
    Option (List (_Hypothesis σ) × List (_Hypothesis σ)) :=
  match clean_loop end_tok beam_size remove_tri
      (beam.mergeSort wu_key_ge) finished [] with
  | none => none
  | some (fin, nb) => some (fin.mergeSort mean_key_ge, nb)

/-- Model of `_clean_beam_cnn`: sort the pool descending by the plain-mean
key, run the hard-exclude selection loop, then re-sort the finished list
descending by the plain-mean key. -/
def _clean_beam_cnn (finished beam : List (_Hypothesis σ)) (end_tok : Int)
    (beam_size : Nat) (remove_tri : Bool) :
    Option (List (_Hypothesis σ) × List (_Hypothesis σ)) :=
  match clean_loop_cnn end_tok beam_size remove_tri
      (beam.mergeSort mean_key_ge) finished [] with
  | none => none
  | some (fin, nb) => some (fin.mergeSort mean_key_ge, nb)

/-- The decoder-state convention of the LSTM branch of `pack_beam` /
`_unpack_topk`: per hypothesis, `(hidden, cell, out)` with `hidden`/`cell`
layer-major matrices (`[layer][feature]`) and `out` a vector. -/
abbrev LSTMState : Type := List (List ℚ) × List (List ℚ) × List ℚ

/-- The decoder-state convention of the T5 branch: one matrix per
hypothesis, stacked along `dim=1` by `pack_beam`. -/
abbrev T5State : Type := List (List ℚ)

/-- Column `i` of a batched tensor along its second dimension: the list
`[row[i] for row in rows]`, `none` when some row is too short (torch raises
on out-of-range indexing).  `hists[:, i, :]` and `hists[:, i]` are modelled
with this. -/
def column (i : Nat) : List (List α) → Option (List α)
  | [] => some []
  | r :: rest =>
    match r.get? i, column i rest with
    | some x, some v => some (x :: v)
    | _, _ => none

/-- Model of `torch.stack(xs, dim=1)` on a list of 2-D tensors (one per hypothesis):
regroup `[hyp][d0][feat]` into `[d0][hyp][feat]`.  torch additionally
requires all tensors to share one shape and raises on an empty list; the
model raises (`none`) on an empty list or when a tensor is shorter than the
first one. -/
def stack_dim1 (xs : List (List α)) : Option (List (List α)) :=
  match xs with
  | [] => none
  | m :: _ => (List.range m.length).mapM (fun l => column l xs)

/-- Model of `pack_beam` for the composite (LSTM) state convention:
`token = [h.sequence[-1] for h in hyps]` and the three state parts stacked
along dimensions 1, 1 and 0 respectively, grouped as `((h, c), out)`.
Raises (`none`) on an empty hypothesis list, an empty sequence, or ragged
states. -/
def pack_beam (hyps : List (_Hypothesis LSTMState)) :
    Option (List Int ×
      ((List (List (List ℚ)) × List (List (List ℚ))) × List (List ℚ))) :=
  match hyps.mapM (fun h => h.sequence.getLast?) with
  | none => none
  | some token =>
    match stack_dim1 (hyps.map (fun h => h.hists.1)),
          stack_dim1 (hyps.map (fun h => h.hists.2.1)) with
    | some s0, some s1 =>
      some (token, ((s0, s1), hyps.map (fun h => h.hists.2.2)))
    | _, _ => none

/-- Model of `pack_beam` with `use_t5=True`: the single-tensor convention,
stacking each hypothesis' state matrix along `dim=1`. -/
def pack_beam_t5 (hyps : List (_Hypothesis T5State)) :
    Option (List Int × List (List (List ℚ))) :=
  match hyps.mapM (fun h => h.sequence.getLast?) with
  | none => none
  | some token =>
    match stack_dim1 (hyps.map (fun h => h.hists)) with
    | some s => some (token, s)
    | none => none

/-- The per-hypothesis state slice of `_unpack_topk`'s LSTM branch:
`(hists[0][:, i, :], hists[1][:, i, :], hists[2][i, :])`. -/
def lstm_slice
    (hists : (List (List (List ℚ)) × List (List (List ℚ))) × List (List ℚ))
    (i : Nat) : Option LSTMState :=
  match column i hists.1.1, column i hists.1.2, hists.2.get? i with
  | some a, some b, some c => some ((a, b, c) : LSTMState)
  | _, _, _ => none

/-- Model of `_unpack_topk` in the `len(hists) == 3` (LSTM) branch:
`beam = topk.size(0)` rows; `topks` and `lps` are the rows of `topk` / `lp`
(all of `lp`, regardless of `beam`); hypothesis `i` gets the state slice
`lstm_slice hists i`, and, when an attention batch is given, the row
`attn[i]`.  Out-of-range slicing raises (`none`); the last component is
`none` exactly when `attn` was `None` (the 3-tuple return). -/
def _unpack_topk (topk : List (List Int)) (lp : List (List ℚ))
    (hists : (List (List (List ℚ)) × List (List (List ℚ))) × List (List ℚ))
    (attn : Option (List (List ℚ))) :
    Option (List (List Int) × List (List ℚ) × List LSTMState ×
      Option (List (List ℚ))) :=
  let beam := topk.length
  let k_hists? : Option (List LSTMState) :=
    (List.range beam).mapM (lstm_slice hists)
  match k_hists? with
  | none => none
  | some k_hists =>
    match attn with
    | none => some (topk, lp, k_hists, none)
    | some at_ =>
      match (List.range beam).mapM (fun i => at_.get? i) with
      | none => none
      | some attns => some (topk, lp, k_hists, some attns)

/-- Model of `_unpack_topk` in the single-tensor (T5) branch:
hypothesis `i` gets `hists[:, i, :]`. -/
def _unpack_topk_t5 (topk : List (List Int)) (lp : List (List ℚ))
    (hists : List (List (List ℚ))) (attn : Option (List (List ℚ))) :
    Option (List (List Int) × List (List ℚ) × List T5State ×
      Option (List (List ℚ))) :=
  let beam := topk.length
  match (List.range beam).mapM (fun i => column i hists) with
  | none => none
  | some k_hists =>
    match attn with
    | none => some (topk, lp, (k_hists : List T5State), none)
    | some at_ =>
      match (List.range beam).mapM (fun i => at_.get? i) with
      | none => none
      | some attns => some (topk, lp, (k_hists : List T5State), some attns)

/-- Model of `next_search_beam`: unpack the decoder output, extend each
hypothesis of the active beam with its candidate row, flatten, and clean via
`_clean_beam` (with its source default `remove_tri=True`).

Two raising behaviours of the source are modelled as `none`:
* the call site unpacks `_unpack_topk`'s result into four names, so an
  omitted attention batch (the 3-tuple return) raises a `ValueError`;
* `topks[i]` / `lps[i]` / `hists_list[i]` / `attns[i]` raise an `IndexError`
  when the active beam is longer than the unpacked batch.  (A beam shorter
  than the batch ignores the extra rows: `enumerate(beam)` drives the
  indexing.) -/
def next_search_beam (beam : List (_Hypothesis LSTMState)) (beam_size : Nat)
    (finished : List (_Hypothesis LSTMState)) (end_tok : Int)
    (topk : List (List Int)) (lp : List (List ℚ))
    (hists : (List (List (List ℚ)) × List (List (List ℚ))) × List (List ℚ))
    (attn : Option (List (List ℚ))) (diverse : ℚ) :
    Option (List (_Hypothesis LSTMState) × List (_Hypothesis LSTMState)) :=
  match _unpack_topk topk lp hists attn with
  | none => none
  | some (topks, lps, hists_list, attns?) =>
    match attns? with
    | none => none
    | some attns =>
      let hyps_lists? : Option (List (List (_Hypothesis LSTMState))) :=
        beam.enum.mapM (fun p =>
          match topks.get? p.1, lps.get? p.1, hists_list.get? p.1,
                attns.get? p.1 with
          | some tk, some l, some hs, some a =>
            some (p.2.extend_k tk l hs (some a) diverse)
          | _, _, _, _ => none)
      match hyps_lists? with
      | none => none
      | some hyps_lists =>
        _clean_beam finished hyps_lists.flatten end_tok beam_size true

/-- Model of `next_search_beam_cnn`: identical to `next_search_beam`
except that the candidate pool is cleaned by `_clean_beam_cnn`. -/
def next_search_beam_cnn (beam : List (_Hypothesis LSTMState))
    (beam_size : Nat) (finished : List (_Hypothesis LSTMState))
    (end_tok : Int) (topk : List (List Int)) (lp : List (List ℚ))
    (hists : (List (List (List ℚ)) × List (List (List ℚ))) × List (List ℚ))
    (attn : Option (List (List ℚ))) (diverse : ℚ) :
    Option (List (_Hypothesis LSTMState) × List (_Hypothesis LSTMState)) :=
  match _unpack_topk topk lp hists attn with
  | none => none
  | some (topks, lps, hists_list, attns?) =>
    match attns? with
    | none => none
    | some attns =>
      let hyps_lists? : Option (List (List (_Hypothesis LSTMState))) :=
        beam.enum.mapM (fun p =>
          match topks.get? p.1, lps.get? p.1, hists_list.get? p.1,
                attns.get? p.1 with
          | some tk, some l, some hs, some a =>
            some (p.2.extend_k tk l hs (some a) diverse)
          | _, _, _, _ => none)
      match hyps_lists? with
      | none => none
      | some hyps_lists =>
        _clean_beam_cnn finished hyps_lists.flatten end_tok beam_size true

/-- Model of `best_sequence`: with `beam = None` take `finished[0]`;
otherwise take `finished[0]` when `finished` is non-empty and
`beam[0] < finished[0]` under `_Hypothesis.lt`, else `beam[0]`.  The leading
start token is stripped; the attention history is returned alongside the
sequence exactly when it is non-empty (Python returns a bare sequence or a
pair depending on `best_beam.attns`, modelled as a `Sum`).  Indexing an empty
list is a raise (`none`). -/
def best_sequence (finished : List (_Hypothesis σ))
    (beam : Option (List (_Hypothesis σ))) :
    Option (Sum (List Int) (List Int × List (List ℚ))) :=
  let best? : Option (_Hypothesis σ) :=
    match beam with
    | none => finished.head?
    | some b =>
      match b.head? with
      | none => none
      | some b0 =>
        match finished.head? with
        | some f0 => if _Hypothesis.lt b0 f0 then some f0 else some b0
        | none => some b0
  match best? with
  | none => none
  | some hb =>
    let best_seq := hb.sequence.drop 1
    if hb.attns.isEmpty then some (Sum.inl best_seq)
    else some (Sum.inr (best_seq, hb.attns))

/-! ### Helper lemmas -/

/-- The trigram list underlying `_has_repeat_tri`. -/
theorem has_repeat_tri_eq (s : List Int) :
    _has_repeat_tri s =
      !(((List.range (s.length - 2)).map (fun i => (s.drop i).take 3)).all
        (fun g =>
          ((List.range (s.length - 2)).map
            (fun i => (s.drop i).take 3)).count g ≤ 1)) := rfl

/-- Lemma: `clean_loop` fills the beam: if the running beam is still short, every
pending candidate has a non-empty sequence, and either some pending candidate
does not end in `end_tok` or the running beam is already non-empty, the loop
succeeds and the returned beam has exactly `beam_size` entries. -/
theorem clean_loop_fills {σ : Type} (end_tok : Int) (beam_size : Nat)
    (remove_tri : Bool) :
    ∀ (pending finished nb : List (_Hypothesis σ)),
      nb.length < beam_size →
      (∀ h ∈ pending, h.sequence ≠ []) →
      ((∃ h ∈ pending, h.sequence.getLast? ≠ some end_tok) ∨ nb ≠ []) →
      ∃ fin nb2,
        clean_loop end_tok beam_size remove_tri pending finished nb =
          some (fin, nb2) ∧ nb2.length = beam_size := by
  intro pending
  induction pending with
  | nil =>
    intro finished nb hlt _ hw
    have hnb : nb ≠ [] := by
      rcases hw with ⟨h, hh, -⟩ | h
      · simp at hh
      · exact h
    obtain ⟨h0, nb', rfl⟩ := List.exists_cons_of_ne_nil hnb
    refine ⟨finished,
      (h0 :: nb') ++ List.replicate (beam_size - (h0 :: nb').length) h0,
      ?_, ?_⟩
    · simp only [clean_loop, pad_new_beam]
      rw [if_neg (by omega)]
    · simp only [List.length_append, List.length_replicate]
      omega
  | cons h rest ih =>
    intro finished nb hlt hpend hw
    have hseq : h.sequence ≠ [] := hpend h (List.mem_cons_self h rest)
    have hrest : ∀ h' ∈ rest, h'.sequence ≠ [] :=
      fun h' hm => hpend h' (List.mem_cons_of_mem h hm)
    set h2 := if remove_tri && _has_repeat_tri h.sequence then
        { h with logprob := sentinel } else h with hh2
    have hseq2 : h2.sequence = h.sequence := by
      rw [hh2]; split <;> rfl
    obtain ⟨t, ht⟩ : ∃ t, h2.sequence.getLast? = some t := by
      rw [hseq2]
      cases hq : h.sequence.getLast? with
      | none => exact absurd (List.getLast?_eq_none_iff.mp hq) hseq
      | some t => exact ⟨t, rfl⟩
    simp only [clean_loop, ← hh2, ht]
    by_cases hte : t = end_tok
    · rw [if_pos hte]
      have hnot : nb.length ≠ beam_size := by omega
      simp only [hnot, if_false]
      apply ih _ nb hlt hrest
      rcases hw with ⟨h', hmem, hne⟩ | hr
      · rcases List.mem_cons.mp hmem with rfl | hmem'
        · exact absurd (by rw [← hseq2, ht, hte]) hne
        · exact Or.inl ⟨h', hmem', hne⟩
      · exact Or.inr hr
    · rw [if_neg hte]
      by_cases hfull : (nb ++ [h2]).length = beam_size
      · refine ⟨finished, nb ++ [h2], ?_, hfull⟩
        simp only [hfull, if_true]
      · simp only [hfull, if_false]
        apply ih finished (nb ++ [h2]) (by simp at hfull ⊢; omega) hrest
        exact Or.inr (by simp)

/-- Lemma: `clean_loop_cnn` fills the beam: same as `clean_loop_fills`, but the
witness candidate must also survive the hard repetition filter. -/
theorem clean_loop_cnn_fills {σ : Type} (end_tok : Int) (beam_size : Nat)
    (remove_tri : Bool) :
    ∀ (pending finished nb : List (_Hypothesis σ)),
      nb.length < beam_size →
      (∀ h ∈ pending, h.sequence ≠ []) →
      ((∃ h ∈ pending, (remove_tri && _has_repeat_tri h.sequence) = false ∧
          h.sequence.getLast? ≠ some end_tok) ∨ nb ≠ []) →
      ∃ fin nb2,
        clean_loop_cnn end_tok beam_size remove_tri pending finished nb =
          some (fin, nb2) ∧ nb2.length = beam_size := by
  intro pending
  induction pending with
  | nil =>
    intro finished nb hlt _ hw
    have hnb : nb ≠ [] := by
      rcases hw with ⟨h, hh, -⟩ | h
      · simp at hh
      · exact h
    obtain ⟨h0, nb', rfl⟩ := List.exists_cons_of_ne_nil hnb
    refine ⟨finished,
      (h0 :: nb') ++ List.replicate (beam_size - (h0 :: nb').length) h0,
      ?_, ?_⟩
    · simp only [clean_loop_cnn, pad_new_beam]
      rw [if_neg (by omega)]
    · simp only [List.length_append, List.length_replicate]
      omega
  | cons h rest ih =>
    intro finished nb hlt hpend hw
    have hseq : h.sequence ≠ [] := hpend h (List.mem_cons_self h rest)
    have hrest : ∀ h' ∈ rest, h'.sequence ≠ [] :=
      fun h' hm => hpend h' (List.mem_cons_of_mem h hm)
    by_cases hskip : (remove_tri && _has_repeat_tri h.sequence) = true
    · simp only [clean_loop_cnn, hskip, if_true]
      apply ih finished nb hlt hrest
      rcases hw with ⟨h', hmem, hok, hne⟩ | hr
      · rcases List.mem_cons.mp hmem with rfl | hmem'
        · rw [hskip] at hok; cases hok
        · exact Or.inl ⟨h', hmem', hok, hne⟩
      · exact Or.inr hr
    · obtain ⟨t, ht⟩ : ∃ t, h.sequence.getLast? = some t := by
        cases hq : h.sequence.getLast? with
        | none => exact absurd (List.getLast?_eq_none_iff.mp hq) hseq
        | some t => exact ⟨t, rfl⟩
      simp only [clean_loop_cnn, hskip, if_false, ht]
      by_cases hte : t = end_tok
      · rw [if_pos hte]
        have hnot : nb.length ≠ beam_size := by omega
        simp only [hnot, if_false]
        apply ih _ nb hlt hrest
        rcases hw with ⟨h', hmem, hok, hne⟩ | hr
        · rcases List.mem_cons.mp hmem with rfl | hmem'
          · exact absurd (by rw [ht, hte]) hne
          · exact Or.inl ⟨h', hmem', hok, hne⟩
        · exact Or.inr hr
      · rw [if_neg hte]
        by_cases hfull : (nb ++ [h]).length = beam_size
        · refine ⟨finished, nb ++ [h], ?_, hfull⟩
          simp [hfull]
        · simp only [hfull, if_false]
          apply ih finished (nb ++ [h]) (by simp at hfull ⊢; omega) hrest
          exact Or.inr (by simp)

/-- Membership analysis of `clean_loop_cnn` with the repetition filter on:
every entry of the returned beam is either an entry of the running beam or a
repeat-free candidate, and every entry of the returned finished list is
either an entry of the running finished list or the stripped form of a
repeat-free candidate ending in `end_tok`. -/
theorem clean_loop_cnn_mem {σ : Type} (end_tok : Int) (beam_size : Nat) :
    ∀ (pending fin0 nb0 fin nb2 : List (_Hypothesis σ)),
      clean_loop_cnn end_tok beam_size true pending fin0 nb0 =
        some (fin, nb2) →
      (∀ h ∈ nb2, h ∈ nb0 ∨ _has_repeat_tri h.sequence = false) ∧
      (∀ f ∈ fin, f ∈ fin0 ∨
        _has_repeat_tri (f.sequence ++ [end_tok]) = false) := by
  intro pending
  induction pending with
  | nil =>
    intro fin0 nb0 fin nb2 heq
    rw [clean_loop_cnn] at heq
    cases hp : pad_new_beam beam_size nb0 with
    | none => rw [hp] at heq; cases heq
    | some nbp =>
      rw [hp] at heq
      simp only [Option.some.injEq, Prod.mk.injEq] at heq
      obtain ⟨rfl, rfl⟩ := heq
      constructor
      · intro h hmem
        left
        unfold pad_new_beam at hp
        split at hp
        · cases hp; exact hmem
        · cases nb0 with
          | nil => cases hp
          | cons h0 nb0' =>
            cases hp
            rcases List.mem_append.mp hmem with hm | hm
            · exact hm
            · rw [List.eq_of_mem_replicate hm]
              exact List.mem_cons_self _ _
      · intro f hf
        exact Or.inl hf
  | cons h rest ih =>
    intro fin0 nb0 fin nb2 heq
    by_cases hskip : (true && _has_repeat_tri h.sequence) = true
    · rw [clean_loop_cnn, if_pos hskip] at heq
      exact ih _ _ _ _ heq
    · have hrep : _has_repeat_tri h.sequence = false := by
        simpa using hskip
      cases hlast : h.sequence.getLast? with
      | none =>
        simp only [clean_loop_cnn, hskip, Bool.false_eq_true, if_false,
          hlast] at heq
        cases heq
      | some t =>
        simp only [clean_loop_cnn, hskip, Bool.false_eq_true, if_false,
          hlast] at heq
        obtain ⟨ys, hys⟩ := List.getLast?_eq_some_iff.mp hlast
        by_cases hte : t = end_tok
        · rw [if_pos hte] at heq
          have hgood : _has_repeat_tri
              ((⟨h.sequence.dropLast, h.logprob, h.hists, h.attns, none⟩ :
                _Hypothesis σ).sequence ++ [end_tok]) = false := by
            show _has_repeat_tri (h.sequence.dropLast ++ [end_tok]) = false
            rw [hys, List.dropLast_concat, ← hte, ← hys]
            exact hrep
          by_cases hfull : nb0.length = beam_size
          · simp only [hfull, if_true, Option.some.injEq,
              Prod.mk.injEq] at heq
            obtain ⟨rfl, rfl⟩ := heq
            refine ⟨fun h' hm => Or.inl hm, fun f hf => ?_⟩
            rcases List.mem_append.mp hf with hm | hm
            · exact Or.inl hm
            · rw [List.mem_singleton.mp hm]
              exact Or.inr hgood
          · simp only [hfull, if_false] at heq
            obtain ⟨hnb, hfin⟩ := ih _ _ _ _ heq
            refine ⟨hnb, fun f hf => ?_⟩
            rcases hfin f hf with hm | hm
            · rcases List.mem_append.mp hm with hm' | hm'
              · exact Or.inl hm'
              · rw [List.mem_singleton.mp hm']
                exact Or.inr hgood
            · exact Or.inr hm
        · rw [if_neg hte] at heq
          by_cases hfull : (nb0 ++ [h]).length = beam_size
          · simp only [hfull, if_true, Option.some.injEq,
              Prod.mk.injEq] at heq
            obtain ⟨rfl, rfl⟩ := heq
            refine ⟨fun h' hm => ?_, fun f hf => Or.inl hf⟩
            rcases List.mem_append.mp hm with hm' | hm'
            · exact Or.inl hm'
            · rw [List.mem_singleton.mp hm']
              exact Or.inr hrep
          · simp only [hfull, if_false] at heq
            obtain ⟨hnb, hfin⟩ := ih _ _ _ _ heq
            refine ⟨fun h' hm => ?_, hfin⟩
            rcases hnb h' hm with hm' | hm'
            · rcases List.mem_append.mp hm' with hm'' | hm''
              · exact Or.inl hm''
              · rw [List.mem_singleton.mp hm'']
                exact Or.inr hrep
            · exact Or.inr hm'

/-- Pointwise description of a successful `Option`-valued `mapM`. -/
theorem option_mapM_spec {α β : Type} (f : α → Option β) :
    ∀ (l : List α) (s : List β), l.mapM f = some s →
      s.length = l.length ∧ ∀ j : Nat, s[j]? = (l[j]?).bind f := by
  intro l
  induction l with
  | nil =>
    intro s hs
    simp only [List.mapM_nil, pure] at hs
    cases hs
    exact ⟨rfl, fun j => by simp⟩
  | cons a t ih =>
    intro s hs
    rw [List.mapM_cons] at hs
    cases hfa : f a with
    | none => rw [hfa] at hs; cases hs
    | some b =>
      rw [hfa] at hs
      cases hmt : t.mapM f with
      | none => rw [hmt] at hs; cases hs
      | some bs =>
        rw [hmt] at hs
        simp only [Option.bind_some, Option.some_bind, pure,
          Option.some.injEq] at hs
        cases hs
        obtain ⟨hlen, hget⟩ := ih bs hmt
        refine ⟨by simp [hlen], fun j => ?_⟩
        cases j with
        | zero => simp [hfa]
        | succ j => simpa using hget j

/-- An `Option`-valued `mapM` succeeds when every element maps to `some`. -/
theorem option_mapM_isSome {α β : Type} (f : α → Option β) :
    ∀ l : List α, (∀ a ∈ l, (f a).isSome) → ∃ s, l.mapM f = some s := by
  intro l
  induction l with
  | nil => exact fun _ => ⟨[], rfl⟩
  | cons a t ih =>
    intro hall
    obtain ⟨b, hb⟩ := Option.isSome_iff_exists.mp
      (hall a (List.mem_cons_self a t))
    obtain ⟨bs, hbs⟩ := ih (fun x hx => hall x (List.mem_cons_of_mem a hx))
    exact ⟨b :: bs, by rw [List.mapM_cons, hb, hbs]; rfl⟩

/-- Lemma: `column` is the `Option`-valued `mapM` of row indexing. -/
theorem column_eq_mapM {α : Type} (i : Nat) :
    ∀ ms : List (List α), column i ms = ms.mapM (fun r => r[i]?) := by
  intro ms
  induction ms with
  | nil => rfl
  | cons r rest ih =>
    rw [column, List.mapM_cons, ih, List.get?_eq_getElem?]
    cases hx : r[i]? with
    | none => simp [hx]
    | some x =>
      cases hm : rest.mapM (fun r => r[i]?) with
      | none => simp [hx, hm]
      | some v => simp [hx, hm]

/-- Description of a successful `mapM` over `List.range`. -/
theorem mapM_range_spec {β : Type} (f : Nat → Option β) (n : Nat)
    (h : ∀ l < n, (f l).isSome) :
    ∃ s, (List.range n).mapM f = some s ∧ s.length = n ∧
      ∀ l, l < n → s[l]? = f l := by
  obtain ⟨s, hs⟩ := option_mapM_isSome f (List.range n)
    (fun a ha => h a (List.mem_range.mp ha))
  obtain ⟨hlen, hget⟩ := option_mapM_spec f (List.range n) s hs
  refine ⟨s, hs, by simp [hlen], fun l hl => ?_⟩
  rw [hget l, List.getElem?_range hl]
  rfl

/-- Slicing a `dim=1` stack at batch index `i` recovers row `i`: the
inverse relation behind the pack/unpack round trip. -/
theorem column_stack {α : Type} (ms : List (List α)) (L : Nat)
    (s : List (List α)) (hL : ∀ r ∈ ms, r.length = L)
    (hs : (List.range L).mapM (fun l => column l ms) = some s)
    (i : Nat) (r : List α) (hr : ms[i]? = some r) :
    column i s = some r := by
  have hims : i < ms.length := by
    by_contra hge
    rw [List.getElem?_eq_none (by omega)] at hr
    cases hr
  have hrmem : r ∈ ms := List.mem_iff_getElem?.mpr ⟨i, hr⟩
  have hrlen : r.length = L := hL r hrmem
  obtain ⟨hslen, hsget⟩ := option_mapM_spec _ _ _ hs
  rw [List.length_range] at hslen
  have hsval : ∀ l, l < L → s[l]? = column l ms := by
    intro l hl
    rw [hsget l, List.getElem?_range hl]
    rfl
  have hrowlen : ∀ row ∈ s, row.length = ms.length := by
    intro row hrow
    obtain ⟨j, hj⟩ := List.mem_iff_getElem?.mp hrow
    obtain ⟨hjlt, -⟩ := List.getElem?_eq_some.mp hj
    have hjL : j < L := by omega
    rw [hsval j hjL, column_eq_mapM] at hj
    exact (option_mapM_spec _ _ _ hj).1
  obtain ⟨v, hv⟩ := option_mapM_isSome (fun row => row[i]?) s
    (fun row hrow => by
      have hlt : i < row.length := by rw [hrowlen row hrow]; exact hims
      simp [List.getElem?_eq_getElem hlt])
  rw [column_eq_mapM, hv]
  obtain ⟨hvlen, hvget⟩ := option_mapM_spec _ _ _ hv
  congr 1
  apply List.ext_getElem?
  intro l
  by_cases hl : l < L
  · rw [hvget l, hsval l hl, column_eq_mapM]
    obtain ⟨w, hw⟩ := option_mapM_isSome (fun row => row[l]?) ms
      (fun row hrow => by
        have hlt : l < row.length := by rw [hL row hrow]; exact hl
        simp [List.getElem?_eq_getElem hlt])
    rw [hw, Option.some_bind]
    obtain ⟨-, hwget⟩ := option_mapM_spec _ _ _ hw
    rw [hwget i, hr, Option.some_bind]
  · rw [List.getElem?_eq_none (by omega), List.getElem?_eq_none (by omega)]

/-- On a non-empty rectangular batch, `stack_dim1` is the `mapM` of the
columns over the common row length. -/
theorem stack_dim1_eq {α : Type} (xs : List (List α)) (L : Nat)
    (hne : xs ≠ []) (hL : ∀ r ∈ xs, r.length = L) :
    stack_dim1 xs = (List.range L).mapM (fun l => column l xs) := by
  obtain ⟨m, rest, rfl⟩ := List.exists_cons_of_ne_nil hne
  rw [stack_dim1, hL m (List.mem_cons_self m rest)]

/-- A rectangular batch stacks successfully. -/
theorem stack_dim1_isSome {α : Type} (xs : List (List α)) (L : Nat)
    (hne : xs ≠ []) (hL : ∀ r ∈ xs, r.length = L) :
    ∃ s, stack_dim1 xs = some s ∧
      (List.range L).mapM (fun l => column l xs) = some s := by
  rw [stack_dim1_eq xs L hne hL]
  obtain ⟨s, hs⟩ := option_mapM_isSome (fun l => column l xs) (List.range L)
    (fun l hl => by
      show (column l xs).isSome = true
      rw [column_eq_mapM]
      obtain ⟨w, hw⟩ := option_mapM_isSome (fun r => r[l]?) xs
        (fun r hr => by
          have hlt : l < r.length := by
            rw [hL r hr]
            exact List.mem_range.mp hl
          simp [List.getElem?_eq_getElem hlt])
      rw [hw]
      rfl)
  exact ⟨s, hs, hs⟩

/-! ### Claim theorems -/

/-- Claim C1, a code bug, evaluated at the failing input.  `best_sequence` is
documented to "return the sequence with the highest prob (normalized by
length)", and the claim says `finishedList[0]` wins exactly when its
plain-mean normalized score is strictly greater.  The source instead tests
`beam[0] < finished[0]` with the inverted `_Hypothesis.__lt__`, so it picks
`finished[0]` exactly when `beam[0]`'s score is strictly higher: here the
finished hypothesis `⟨[0,4], -1⟩` has normalized score `-1/2`, strictly
greater than the beam hypothesis `⟨[0,5], -10⟩`'s `-5`, yet the code returns
the beam sequence `[5]`. -/
theorem best_sequence_picks_lower_scored_hypothesis :
    best_sequence [(⟨[0, 4], -1, (), [], none⟩ : _Hypothesis Unit)]
        (some [⟨[0, 5], -10, (), [], none⟩]) = some (Sum.inl [5]) ∧
      mean_key (⟨[0, 5], -10, (), [], none⟩ : _Hypothesis Unit) <
        mean_key (⟨[0, 4], -1, (), [], none⟩ : _Hypothesis Unit) := by
  constructor
  · norm_num [best_sequence, _Hypothesis.lt, mean_key]
  · norm_num [mean_key]

/-- Claim C6.  `extend_k` with `attn = None` yields one child per
`(token, logprob)` candidate pair; child `i` appends token `i` to the
parent's sequence (length grows by one) and scores
`parent.logprob + logprobs[i] - diverse * i`. -/
theorem extend_k_children_spec {σ : Type} (self : _Hypothesis σ)
    (topk : List Int) (logprobs : List ℚ) (hists : σ) (diverse : ℚ)
    (hlen : topk.length = logprobs.length) :
    (self.extend_k topk logprobs hists none diverse).length = topk.length ∧
    ∀ i t l, topk.get? i = some t → logprobs.get? i = some l →
      (self.extend_k topk logprobs hists none diverse).get? i =
        some ⟨self.sequence ++ [t],
              self.logprob + l - diverse * (i : ℚ), hists, [],
              self.coverage⟩ ∧
      ∀ c, (self.extend_k topk logprobs hists none diverse).get? i = some c →
        c.sequence.length = self.sequence.length + 1 := by
  constructor
  · simp [_Hypothesis.extend_k, hlen]
  · intro i t l ht hl
    have hzip : (topk.zip logprobs).get? i = some (t, l) := by
      rw [List.get?_eq_getElem?] at ht hl ⊢
      simp [List.getElem?_zip_eq_some]
      exact ⟨ht, hl⟩
    have henum : ((topk.zip logprobs).enum).get? i = some (i, (t, l)) := by
      rw [List.get?_eq_getElem?] at hzip ⊢
      simp [List.getElem?_enum, hzip]
    constructor
    · simp only [_Hypothesis.extend_k]
      rw [List.get?_eq_getElem?] at henum ⊢
      simp only [List.getElem?_map, henum, Option.map_some']
    · intro c hc
      simp only [_Hypothesis.extend_k] at hc
      rw [List.get?_eq_getElem?] at hc
      simp only [List.getElem?_map] at hc
      rw [List.get?_eq_getElem?] at henum
      rw [henum] at hc
      simp only [Option.map_some', Option.some.injEq] at hc
      subst hc
      simp

/-- Claim C6 witness: parent `logprob = -1`, tokens `[5, 7]`,
logprobs `[-1/10, -1/2]`, `diverse = 1`: two children, scores
`-11/10` and `-5/2`. -/
theorem extend_k_children_spec_witness :
    ((⟨[0], -1, (), [], none⟩ : _Hypothesis Unit).extend_k [5, 7]
        [-1/10, -1/2] () none 1).length = 2 ∧
      ((⟨[0], -1, (), [], none⟩ : _Hypothesis Unit).extend_k [5, 7]
        [-1/10, -1/2] () none 1).get? 1 =
        some ⟨[0, 7], -1 + -1/2 - 1 * (1 : ℚ), (), [], none⟩ := by
  have h := extend_k_children_spec (⟨[0], -1, (), [], none⟩ : _Hypothesis Unit)
    [5, 7] [-1/10, -1/2] () 1 rfl
  refine ⟨h.1, ?_⟩
  have h2 := (h.2 1 7 (-1/2) rfl rfl).1
  rw [h2]
  norm_num

/-- Claim C10.  `extend_k` with `attn = None` gives every child an empty
attention history and the parent's coverage unchanged: the parent's
accumulated attention history is discarded, not inherited. -/
theorem extend_k_attn_none_frame {σ : Type} (self : _Hypothesis σ)
    (topk : List Int) (logprobs : List ℚ) (hists : σ) (diverse : ℚ) :
    ∀ c ∈ self.extend_k topk logprobs hists none diverse,
      c.attns = [] ∧ c.coverage = self.coverage := by
  intro c hc
  simp only [_Hypothesis.extend_k, List.mem_map] at hc
  obtain ⟨p, -, rfl⟩ := hc
  exact ⟨rfl, rfl⟩

/-- Claim C10 witness: a parent with a non-empty attention history and a
coverage vector; its child keeps the coverage and loses the history. -/
theorem extend_k_attn_none_frame_witness :
    (⟨[0, 5, 1], -1, (), [[1, 2]], some [3, 4]⟩ :
        _Hypothesis Unit).extend_k [9] [-1/2] () none 1 =
      [⟨[0, 5, 1, 9], -3/2, (), [], some [3, 4]⟩] ∧
    ∀ c ∈ (⟨[0, 5, 1], -1, (), [[1, 2]], some [3, 4]⟩ :
        _Hypothesis Unit).extend_k [9] [-1/2] () none 1,
      c.attns = [] ∧ c.coverage = some [3, 4] :=
  ⟨by norm_num [_Hypothesis.extend_k],
   extend_k_attn_none_frame
     (⟨[0, 5, 1], -1, (), [[1, 2]], some [3, 4]⟩ : _Hypothesis Unit)
     [9] [-1/2] () 1⟩

/-- Claim C2 counterexample.  The claim says each beam step returns a beam of
exactly `beamSize` and "does not fail" when fewer than `beamSize` candidates
are accepted.  With a non-empty pool whose single candidate ends in the end
token, zero candidates are accepted, and the padding loop's `new_beam[0]`
raises an `IndexError`: both variants return the failure value. -/
theorem clean_beam_raises_when_none_accepted :
    _clean_beam ([] : List (_Hypothesis Unit))
        [⟨[0, 9], -1, (), [], none⟩] 9 1 true = none ∧
    _clean_beam_cnn ([] : List (_Hypothesis Unit))
        [⟨[0, 9], -1, (), [], none⟩] 9 1 true = none := by
  constructor
  · simp [_clean_beam, clean_loop, pad_new_beam, _has_repeat_tri]
  · simp [_clean_beam_cnn, clean_loop_cnn, pad_new_beam, _has_repeat_tri]

/-- Claim C2, amended.  Both cleaning variants return a new beam of exactly
`beam_size` entries — padding by duplicating the beam's first entry when
fewer survive — provided at least one candidate is accepted into the new
beam: for `_clean_beam` some candidate with a non-empty sequence not ending
in `end_tok`, for `_clean_beam_cnn` additionally one passing the repetition
filter.  (When zero candidates are accepted the call raises instead, see
`clean_beam_raises_when_none_accepted`.) -/
theorem clean_beam_full_when_some_accepted {σ : Type}
    (finished beam : List (_Hypothesis σ)) (end_tok : Int) (beam_size : Nat)
    (hbs : 0 < beam_size) (hne : ∀ h ∈ beam, h.sequence ≠ []) :
    ((∃ h ∈ beam, h.sequence.getLast? ≠ some end_tok) →
      ∃ fin nb, _clean_beam finished beam end_tok beam_size true =
        some (fin, nb) ∧ nb.length = beam_size) ∧
    ((∃ h ∈ beam, _has_repeat_tri h.sequence = false ∧
        h.sequence.getLast? ≠ some end_tok) →
      ∃ fin nb, _clean_beam_cnn finished beam end_tok beam_size true =
        some (fin, nb) ∧ nb.length = beam_size) := by
  constructor
  · rintro ⟨h, hmem, hlast⟩
    have hperm := List.mergeSort_perm beam (wu_key_ge (σ := σ))
    obtain ⟨fin, nb, heq, hlen⟩ := clean_loop_fills end_tok beam_size true
      (beam.mergeSort wu_key_ge) finished [] (by simpa using hbs)
      (fun h' hm => hne h' (hperm.mem_iff.mp hm))
      (Or.inl ⟨h, hperm.mem_iff.mpr hmem, hlast⟩)
    exact ⟨fin.mergeSort mean_key_ge, nb, by simp only [_clean_beam, heq],
      hlen⟩
  · rintro ⟨h, hmem, hrep, hlast⟩
    have hperm := List.mergeSort_perm beam (mean_key_ge (σ := σ))
    obtain ⟨fin, nb, heq, hlen⟩ := clean_loop_cnn_fills end_tok beam_size true
      (beam.mergeSort mean_key_ge) finished [] (by simpa using hbs)
      (fun h' hm => hne h' (hperm.mem_iff.mp hm))
      (Or.inl ⟨h, hperm.mem_iff.mpr hmem, by simp [hrep], hlast⟩)
    exact ⟨fin.mergeSort mean_key_ge, nb,
      by simp only [_clean_beam_cnn, heq], hlen⟩

/-- Claim C2 witness: a single accepted candidate and `beam_size = 2`; both
variants succeed and pad the beam up to exactly 2 entries. -/
theorem clean_beam_full_when_some_accepted_witness :
    (∃ fin nb, _clean_beam ([] : List (_Hypothesis Unit))
        [⟨[0, 3], -1, (), [], none⟩] 9 2 true =
          some (fin, nb) ∧ nb.length = 2) ∧
    (∃ fin nb, _clean_beam_cnn ([] : List (_Hypothesis Unit))
        [⟨[0, 3], -1, (), [], none⟩] 9 2 true =
          some (fin, nb) ∧ nb.length = 2) := by
  have h := clean_beam_full_when_some_accepted
    ([] : List (_Hypothesis Unit)) [⟨[0, 3], -1, (), [], none⟩] 9 2
    (by decide) (by decide)
  exact ⟨h.1 ⟨⟨[0, 3], -1, (), [], none⟩, by simp, by decide⟩,
         h.2 ⟨⟨[0, 3], -1, (), [], none⟩, by simp, by decide, by decide⟩⟩

/-- Claim C3, a code bug, evaluated at the failing input.  The claim says
`next_search_beam` raises only on a batch-size mismatch and completes on
well-formed input.  In the source, `_unpack_topk` returns a 3-tuple when
`attn is None`, and the call site unpacks it into four names, so the call
raises a `ValueError` on every well-formed input whenever the (default!)
`attn=None` is used — first conjunct.  With attention supplied the same
input completes — second conjunct.  Moreover a beam SHORTER than the top-k
batch is not a detected mismatch: the extra top-k row is silently ignored
and the call returns exactly what it returns for the 1-row batch — third
conjunct. -/
theorem next_search_beam_error_behavior :
    next_search_beam [⟨[0, 5], -1, ([[1]], [[2]], [3]), [], none⟩] 1 [] 9
        [[4]] [[-1/2]] (([[[1]]], [[[2]]]), [[3]]) none 1 = none ∧
    next_search_beam [⟨[0, 5], -1, ([[1]], [[2]], [3]), [], none⟩] 1 [] 9
        [[4]] [[-1/2]] (([[[1]]], [[[2]]]), [[3]]) (some [[7]]) 1 =
      some ([], [⟨[0, 5, 4], -3/2, ([[1]], [[2]], [3]), [[7]], some [7]⟩]) ∧
    next_search_beam [⟨[0, 5], -1, ([[1]], [[2]], [3]), [], none⟩] 1 [] 9
        [[4], [6]] [[-1/2], [-1/4]]
        (([[[1], [10]]], [[[2], [20]]]), [[3], [30]])
        (some [[7], [8]]) 1 =
      some ([], [⟨[0, 5, 4], -3/2, ([[1]], [[2]], [3]), [[7]], some [7]⟩]) := by
  have hr : _has_repeat_tri [0, 5, 4] = false := by decide
  refine ⟨?_, ?_, ?_⟩
  · simp [next_search_beam, _unpack_topk, lstm_slice, column, List.mapM.loop,
      List.range_succ]
  · simp only [next_search_beam, _unpack_topk, lstm_slice, column,
      List.mapM.loop, List.range_succ, List.range_zero]
    norm_num [List.enum, List.enumFrom, _Hypothesis.extend_k, _clean_beam,
      clean_loop, hr, pad_new_beam, List.mapM.loop, lstm_slice, column]
  · simp only [next_search_beam, _unpack_topk, lstm_slice, column,
      List.mapM.loop, List.range_succ, List.range_zero]
    norm_num [List.enum, List.enumFrom, _Hypothesis.extend_k, _clean_beam,
      clean_loop, hr, pad_new_beam, List.mapM.loop, lstm_slice, column]

/-- Claim C8.  Whatever key pruned the beam (`_clean_beam` uses the Wu
penalty with `alpha = 0.9`, `_clean_beam_cnn` the plain mean), the finished
list returned by either variant is sorted descending by the plain-mean
normalized score `logprob / len(sequence)`. -/
theorem finished_sorted_plain_mean {σ : Type}
    (finished beam : List (_Hypothesis σ)) (end_tok : Int) (beam_size : Nat)
    (remove_tri : Bool) (fin nb : List (_Hypothesis σ)) :
    (_clean_beam finished beam end_tok beam_size remove_tri =
        some (fin, nb) →
      fin.Pairwise (fun a b => mean_key b ≤ mean_key a)) ∧
    (_clean_beam_cnn finished beam end_tok beam_size remove_tri =
        some (fin, nb) →
      fin.Pairwise (fun a b => mean_key b ≤ mean_key a)) := by
  have htrans : ∀ a b c : _Hypothesis σ,
      mean_key_ge a b → mean_key_ge b c → mean_key_ge a c := by
    intro a b c hab hbc
    simp only [mean_key_ge, decide_eq_true_eq] at hab hbc ⊢
    exact le_trans hbc hab
  have htot : ∀ a b : _Hypothesis σ, mean_key_ge a b || mean_key_ge b a := by
    intro a b
    simp only [mean_key_ge, Bool.or_eq_true, decide_eq_true_eq]
    exact le_total (mean_key b) (mean_key a)
  constructor
  · intro heq
    cases hc : clean_loop end_tok beam_size remove_tri
        (beam.mergeSort wu_key_ge) finished [] with
    | none => rw [_clean_beam, hc] at heq; cases heq
    | some p =>
      obtain ⟨f0, nb0⟩ := p
      rw [_clean_beam, hc] at heq
      simp only [Option.some.injEq, Prod.mk.injEq] at heq
      obtain ⟨hf, -⟩ := heq
      rw [← hf]
      exact (List.sorted_mergeSort htrans htot f0).imp
        (fun hab => by simpa [mean_key_ge] using hab)
  · intro heq
    cases hc : clean_loop_cnn end_tok beam_size remove_tri
        (beam.mergeSort mean_key_ge) finished [] with
    | none => rw [_clean_beam_cnn, hc] at heq; cases heq
    | some p =>
      obtain ⟨f0, nb0⟩ := p
      rw [_clean_beam_cnn, hc] at heq
      simp only [Option.some.injEq, Prod.mk.injEq] at heq
      obtain ⟨hf, -⟩ := heq
      rw [← hf]
      exact (List.sorted_mergeSort htrans htot f0).imp
        (fun hab => by simpa [mean_key_ge] using hab)

/-- Claim C8 witness: concrete step with a two-element finished list; the
output finished list is sorted descending by the plain-mean score. -/
theorem finished_sorted_plain_mean_witness :
    ([⟨[4], -1, (), [], none⟩, ⟨[5], -4, (), [], none⟩] :
        List (_Hypothesis Unit)).Pairwise
      (fun a b => mean_key b ≤ mean_key a) := by
  have hr : _has_repeat_tri [0, 3] = false := by decide
  have hsorted : ([⟨[4], -1, (), [], none⟩, ⟨[5], -4, (), [], none⟩] :
      List (_Hypothesis Unit)).Pairwise (fun a b => mean_key_ge a b = true) := by
    constructor
    · intro b hb
      rw [List.mem_singleton] at hb
      subst hb
      simp only [mean_key_ge, mean_key, decide_eq_true_eq]
      norm_num
    · constructor
      · intro b hb
        cases hb
      · exact List.Pairwise.nil
  have heq : _clean_beam
      ([⟨[4], -1, (), [], none⟩, ⟨[5], -4, (), [], none⟩] :
        List (_Hypothesis Unit))
      [⟨[0, 3], -1, (), [], none⟩] 9 1 true =
      some ([⟨[4], -1, (), [], none⟩, ⟨[5], -4, (), [], none⟩],
        [⟨[0, 3], -1, (), [], none⟩]) := by
    simp only [_clean_beam, List.mergeSort_singleton, clean_loop, hr,
      Bool.and_false, if_false]
    norm_num
    rw [List.mergeSort_of_sorted hsorted]
  exact (finished_sorted_plain_mean _ _ 9 1 true _ _).1 heq

/-- Claim C4.  Packing a list of hypotheses and unpacking the resulting state
batch (with the per-hypothesis last tokens arranged as the 1-column top-k
batch of an identity step) recovers, per hypothesis, the same last token and
the same state values, for both the composite (LSTM) and the single-tensor
(T5) conventions.  `pack_beam` groups its three stacked parts as
`((h, c), out)` and the model is expected to hand the same three parts back
to `_unpack_topk`; the hypotheses require a non-empty beam, non-empty
sequences and rectangular states — exactly the shapes `torch.stack`
accepts. -/
theorem pack_unpack_roundtrip :
    (∀ (hyps : List (_Hypothesis LSTMState)) (lp : List (List ℚ))
        (L0 L1 : Nat), hyps ≠ [] → (∀ h ∈ hyps, h.sequence ≠ []) →
      (∀ h ∈ hyps, h.hists.1.length = L0) →
      (∀ h ∈ hyps, h.hists.2.1.length = L1) →
      ∃ token s0 s1,
        pack_beam hyps =
          some (token, ((s0, s1), hyps.map (fun h => h.hists.2.2))) ∧
        (∀ j : Nat, token[j]? =
          (hyps[j]?).bind (fun h => h.sequence.getLast?)) ∧
        _unpack_topk (token.map (fun t => [t])) lp
            ((s0, s1), hyps.map (fun h => h.hists.2.2)) none =
          some (token.map (fun t => [t]), lp,
            hyps.map (fun h => h.hists), none)) ∧
    (∀ (hyps : List (_Hypothesis T5State)) (lp : List (List ℚ)) (L : Nat),
      hyps ≠ [] → (∀ h ∈ hyps, h.sequence ≠ []) →
      (∀ h ∈ hyps, h.hists.length = L) →
      ∃ token s,
        pack_beam_t5 hyps = some (token, s) ∧
        (∀ j : Nat, token[j]? =
          (hyps[j]?).bind (fun h => h.sequence.getLast?)) ∧
        _unpack_topk_t5 (token.map (fun t => [t])) lp s none =
          some (token.map (fun t => [t]), lp,
            hyps.map (fun h => h.hists), none)) := by
  constructor
  · intro hyps lp L0 L1 hne hseq hL0 hL1
    obtain ⟨token, htok⟩ := option_mapM_isSome
      (fun h => h.sequence.getLast?) hyps
      (fun h hm => by
        rw [List.getLast?_isSome]
        exact hseq h hm)
    obtain ⟨htoklen, htokget⟩ := option_mapM_spec _ _ _ htok
    have hms0 : ∀ r ∈ hyps.map (fun h => h.hists.1), r.length = L0 := by
      intro r hr
      obtain ⟨h, hm, rfl⟩ := List.mem_map.mp hr
      exact hL0 h hm
    have hms1 : ∀ r ∈ hyps.map (fun h => h.hists.2.1), r.length = L1 := by
      intro r hr
      obtain ⟨h, hm, rfl⟩ := List.mem_map.mp hr
      exact hL1 h hm
    obtain ⟨s0, hst0, hs0⟩ := stack_dim1_isSome _ L0 (by simpa using hne) hms0
    obtain ⟨s1, hst1, hs1⟩ := stack_dim1_isSome _ L1 (by simpa using hne) hms1
    refine ⟨token, s0, s1, ?_, fun j => htokget j, ?_⟩
    · rw [pack_beam, htok, hst0, hst1]
    · have hbeam : (token.map (fun t : Int => [t])).length = hyps.length := by
        simp [htoklen]
      have hgi : ∀ i (hi : i < hyps.length),
          lstm_slice ((s0, s1), hyps.map (fun h => h.hists.2.2)) i =
            some (hyps[i].hists) := by
        intro i hi
        have hh : hyps[i]? = some hyps[i] := List.getElem?_eq_getElem hi
        have h1 : column i s0 = some (hyps[i].hists.1) :=
          column_stack _ L0 s0 hms0 hs0 i _
            (by rw [List.getElem?_map, hh]; rfl)
        have h2 : column i s1 = some (hyps[i].hists.2.1) :=
          column_stack _ L1 s1 hms1 hs1 i _
            (by rw [List.getElem?_map, hh]; rfl)
        have h3 : (hyps.map (fun h => h.hists.2.2)).get? i =
            some (hyps[i].hists.2.2) := by
          rw [List.get?_eq_getElem?, List.getElem?_map, hh]
          rfl
        dsimp only [lstm_slice]
        rw [h1, h2, h3]
      obtain ⟨ks, hks0, hkslen, hksget⟩ := mapM_range_spec
        (lstm_slice ((s0, s1), hyps.map (fun h => h.hists.2.2))) hyps.length
        (fun i hi => by rw [hgi i hi]; rfl)
      have hkeq : ks = hyps.map (fun h => h.hists) := by
        apply List.ext_getElem?
        intro i
        by_cases hi : i < hyps.length
        · rw [hksget i hi, hgi i hi, List.getElem?_map,
            List.getElem?_eq_getElem hi]
          rfl
        · rw [List.getElem?_eq_none (by omega),
            List.getElem?_eq_none (by simp only [List.length_map]; omega)]
      rw [hkeq] at hks0
      simp only [_unpack_topk, hbeam, hks0]
  · intro hyps lp L hne hseq hL
    obtain ⟨token, htok⟩ := option_mapM_isSome
      (fun h => h.sequence.getLast?) hyps
      (fun h hm => by
        rw [List.getLast?_isSome]
        exact hseq h hm)
    obtain ⟨htoklen, htokget⟩ := option_mapM_spec _ _ _ htok
    have hms : ∀ r ∈ hyps.map (fun h => h.hists), r.length = L := by
      intro r hr
      obtain ⟨h, hm, rfl⟩ := List.mem_map.mp hr
      exact hL h hm
    obtain ⟨s, hst, hs⟩ := stack_dim1_isSome _ L (by simpa using hne) hms
    refine ⟨token, s, ?_, fun j => htokget j, ?_⟩
    · rw [pack_beam_t5, htok, hst]
    · have hbeam : (token.map (fun t : Int => [t])).length = hyps.length := by
        simp [htoklen]
      have hgi : ∀ i (hi : i < hyps.length),
          column i s = some (hyps[i].hists) := by
        intro i hi
        have hh : hyps[i]? = some hyps[i] := List.getElem?_eq_getElem hi
        exact column_stack _ L s hms hs i _
          (by rw [List.getElem?_map, hh]; rfl)
      obtain ⟨ks, hks0, hkslen, hksget⟩ := mapM_range_spec
        (fun i => column i s) hyps.length
        (fun i hi => by
          show (column i s).isSome = true
          rw [hgi i hi]
          rfl)
      have hkeq : ks = hyps.map (fun h => h.hists) := by
        apply List.ext_getElem?
        intro i
        by_cases hi : i < hyps.length
        · rw [hksget i hi]
          show column i s = _
          rw [hgi i hi, List.getElem?_map, List.getElem?_eq_getElem hi]
          rfl
        · rw [List.getElem?_eq_none (by omega),
            List.getElem?_eq_none (by simp only [List.length_map]; omega)]
      rw [hkeq] at hks0
      simp only [_unpack_topk_t5, hbeam, hks0]

/-- Claim C4 witness: a concrete two-hypothesis beam in each convention. -/
theorem pack_unpack_roundtrip_witness :
    (∃ token s0 s1,
      pack_beam [⟨[0, 5], -1, ([[1, 2]], [[3, 4]], [5, 6]), [], none⟩,
                 ⟨[0, 7], -2, ([[10, 20]], [[30, 40]], [50, 60]), [],
                  none⟩] =
        some (token, ((s0, s1),
          ([⟨[0, 5], -1, ([[1, 2]], [[3, 4]], [5, 6]), [], none⟩,
            ⟨[0, 7], -2, ([[10, 20]], [[30, 40]], [50, 60]), [], none⟩] :
            List (_Hypothesis LSTMState)).map (fun h => h.hists.2.2))) ∧
      (∀ j : Nat, token[j]? =
        (([⟨[0, 5], -1, ([[1, 2]], [[3, 4]], [5, 6]), [], none⟩,
           ⟨[0, 7], -2, ([[10, 20]], [[30, 40]], [50, 60]), [], none⟩] :
           List (_Hypothesis LSTMState))[j]?).bind
          (fun h => h.sequence.getLast?)) ∧
      _unpack_topk (token.map (fun t => [t])) [] ((s0, s1),
          ([⟨[0, 5], -1, ([[1, 2]], [[3, 4]], [5, 6]), [], none⟩,
            ⟨[0, 7], -2, ([[10, 20]], [[30, 40]], [50, 60]), [], none⟩] :
            List (_Hypothesis LSTMState)).map (fun h => h.hists.2.2)) none =
        some (token.map (fun t => [t]), [],
          ([⟨[0, 5], -1, ([[1, 2]], [[3, 4]], [5, 6]), [], none⟩,
            ⟨[0, 7], -2, ([[10, 20]], [[30, 40]], [50, 60]), [], none⟩] :
            List (_Hypothesis LSTMState)).map (fun h => h.hists), none)) ∧
    (∃ token s,
      pack_beam_t5 [⟨[0, 5], -1, [[1, 2], [3, 4]], [], none⟩,
                    ⟨[0, 7], -2, [[5, 6], [7, 8]], [], none⟩] =
        some (token, s) ∧
      (∀ j : Nat, token[j]? =
        (([⟨[0, 5], -1, [[1, 2], [3, 4]], [], none⟩,
           ⟨[0, 7], -2, [[5, 6], [7, 8]], [], none⟩] :
           List (_Hypothesis T5State))[j]?).bind
          (fun h => h.sequence.getLast?)) ∧
      _unpack_topk_t5 (token.map (fun t => [t])) [] s none =
        some (token.map (fun t => [t]), [],
          ([⟨[0, 5], -1, [[1, 2], [3, 4]], [], none⟩,
            ⟨[0, 7], -2, [[5, 6], [7, 8]], [], none⟩] :
            List (_Hypothesis T5State)).map (fun h => h.hists), none)) :=
  ⟨pack_unpack_roundtrip.1
      [⟨[0, 5], -1, ([[1, 2]], [[3, 4]], [5, 6]), [], none⟩,
       ⟨[0, 7], -2, ([[10, 20]], [[30, 40]], [50, 60]), [], none⟩]
      [] 1 1 (by simp) (by decide) (by decide) (by decide),
   pack_unpack_roundtrip.2
      [⟨[0, 5], -1, [[1, 2], [3, 4]], [], none⟩,
       ⟨[0, 7], -2, [[5, 6], [7, 8]], [], none⟩]
      [] 2 (by simp) (by decide) (by decide)⟩

/-- Claim C5.  Under the hard-exclude policy (`_clean_beam_cnn` with
`remove_tri = True`), a candidate whose sequence contains a repeated trigram
is never put into the returned beam and never promoted to the finished list,
regardless of its score: every returned beam entry is repeat-free, and every
finished entry either was already finished on entry or is the stripped form
of a repeat-free candidate.  (The sentinel write `h.logprob = -1e9` precedes
`continue`, so it is unobservable in the returned lists.) -/
theorem clean_beam_cnn_hard_excludes {σ : Type}
    (finished beam : List (_Hypothesis σ)) (end_tok : Int) (beam_size : Nat)
    (fin nb : List (_Hypothesis σ))
    (heq : _clean_beam_cnn finished beam end_tok beam_size true =
      some (fin, nb)) :
    (∀ h ∈ nb, _has_repeat_tri h.sequence = false) ∧
    (∀ f ∈ fin, f ∈ finished ∨
      _has_repeat_tri (f.sequence ++ [end_tok]) = false) := by
  cases hc : clean_loop_cnn end_tok beam_size true
      (beam.mergeSort mean_key_ge) finished [] with
  | none => rw [_clean_beam_cnn, hc] at heq; cases heq
  | some p =>
    obtain ⟨f0, nb0⟩ := p
    rw [_clean_beam_cnn, hc] at heq
    simp only [Option.some.injEq, Prod.mk.injEq] at heq
    obtain ⟨hf, hn⟩ := heq
    obtain ⟨hnb, hfin⟩ := clean_loop_cnn_mem end_tok beam_size _ _ _ _ _ hc
    constructor
    · intro h hm
      rw [← hn] at hm
      rcases hnb h hm with hm' | hm'
      · exact absurd hm' (List.not_mem_nil h)
      · exact hm'
    · intro f hfm
      rw [← hf] at hfm
      exact hfin f ((List.mergeSort_perm f0 mean_key_ge).mem_iff.mp hfm)

/-- Claim C5 witness: the repeat-trigram candidate `[0,1,2,3,1,2,3]` has the
best score of the pool yet reaches neither the returned beam nor the
finished list. -/
theorem clean_beam_cnn_hard_excludes_witness :
    (∀ h ∈ [(⟨[0, 1, 2, 3, 4, 5, 7], -6, (), [], none⟩ : _Hypothesis Unit)],
      _has_repeat_tri h.sequence = false) ∧
    (∀ f ∈ [(⟨[0, 1, 2, 3, 4, 5], -5, (), [], none⟩ : _Hypothesis Unit)],
      f ∈ ([] : List (_Hypothesis Unit)) ∨
        _has_repeat_tri (f.sequence ++ [99]) = false) := by
  have hA : _has_repeat_tri [0, 1, 2, 3, 1, 2, 3] = true := by decide
  have hB : _has_repeat_tri [0, 1, 2, 3, 4, 5, 99] = false := by decide
  have hC : _has_repeat_tri [0, 1, 2, 3, 4, 5, 7] = false := by decide
  have hsorted : ([⟨[0, 1, 2, 3, 1, 2, 3], -1, (), [], none⟩,
      ⟨[0, 1, 2, 3, 4, 5, 99], -5, (), [], none⟩,
      ⟨[0, 1, 2, 3, 4, 5, 7], -6, (), [], none⟩] :
      List (_Hypothesis Unit)).Pairwise
      (fun a b => mean_key_ge a b = true) := by
    constructor
    · intro b hb
      simp only [mean_key_ge, mean_key, decide_eq_true_eq]
      rcases List.mem_cons.mp hb with rfl | hb'
      · norm_num
      · rw [List.mem_singleton.mp hb']
        norm_num
    · constructor
      · intro b hb
        rw [List.mem_singleton.mp hb]
        simp only [mean_key_ge, mean_key, decide_eq_true_eq]
        norm_num
      · constructor
        · intro b hb
          cases hb
        · exact List.Pairwise.nil
  have heq : _clean_beam_cnn ([] : List (_Hypothesis Unit))
      [⟨[0, 1, 2, 3, 1, 2, 3], -1, (), [], none⟩,
       ⟨[0, 1, 2, 3, 4, 5, 99], -5, (), [], none⟩,
       ⟨[0, 1, 2, 3, 4, 5, 7], -6, (), [], none⟩] 99 1 true =
      some ([⟨[0, 1, 2, 3, 4, 5], -5, (), [], none⟩],
        [⟨[0, 1, 2, 3, 4, 5, 7], -6, (), [], none⟩]) := by
    simp only [_clean_beam_cnn]
    rw [List.mergeSort_of_sorted hsorted]
    simp only [clean_loop_cnn, hA, hB, hC, List.mergeSort_singleton]
    norm_num
  exact clean_beam_cnn_hard_excludes _ _ 99 1 _ _ heq

/-- Claim C9.  In `_clean_beam` the pool is sorted by the Wu key computed
from the pre-penalty `logprob` and the `-1e9` sentinel is only written
during the subsequent selection walk, so a repeat-trigram candidate keeps
its original rank.  Concretely (`beam_size = 2`, end token 99): the
repeat-trigram candidate `[0,1,2,3,1,2,3]` with original score `-1` is
selected into the new beam (carrying the sentinel) ahead of the clean
candidate with score `-6`, which is dropped; and when the same repeat
candidate ends in the end token it is promoted to the finished list
(with the sentinel) instead. -/
theorem clean_beam_soft_keeps_rank :
    _has_repeat_tri [0, 1, 2, 3, 1, 2, 3] = true ∧
    _clean_beam ([] : List (_Hypothesis Unit))
        [⟨[0, 1, 2, 3, 1, 2, 3], -1, (), [], none⟩,
         ⟨[0, 1, 2, 3, 4, 5, 6], -5, (), [], none⟩,
         ⟨[0, 1, 2, 3, 4, 5, 7], -6, (), [], none⟩] 99 2 true =
      some ([],
        [⟨[0, 1, 2, 3, 1, 2, 3], sentinel, (), [], none⟩,
         ⟨[0, 1, 2, 3, 4, 5, 6], -5, (), [], none⟩]) ∧
    _clean_beam ([] : List (_Hypothesis Unit))
        [⟨[0, 1, 2, 3, 1, 2, 3, 99], -1, (), [], none⟩,
         ⟨[0, 1, 2, 3, 4, 5, 6], -5, (), [], none⟩,
         ⟨[0, 1, 2, 3, 4, 5, 7], -6, (), [], none⟩] 99 2 true =
      some ([⟨[0, 1, 2, 3, 1, 2, 3], sentinel, (), [], none⟩],
        [⟨[0, 1, 2, 3, 4, 5, 6], -5, (), [], none⟩,
         ⟨[0, 1, 2, 3, 4, 5, 7], -6, (), [], none⟩]) := by
  have hA : _has_repeat_tri [0, 1, 2, 3, 1, 2, 3] = true := by decide
  have hA2 : _has_repeat_tri [0, 1, 2, 3, 1, 2, 3, 99] = true := by decide
  have hB : _has_repeat_tri [0, 1, 2, 3, 4, 5, 6] = false := by decide
  have hC : _has_repeat_tri [0, 1, 2, 3, 4, 5, 7] = false := by decide
  have hsorted1 : ([⟨[0, 1, 2, 3, 1, 2, 3], -1, (), [], none⟩,
      ⟨[0, 1, 2, 3, 4, 5, 6], -5, (), [], none⟩,
      ⟨[0, 1, 2, 3, 4, 5, 7], -6, (), [], none⟩] :
      List (_Hypothesis Unit)).Pairwise
      (fun a b => wu_key_ge a b = true) := by
    constructor
    · intro b hb
      simp only [wu_key_ge, length_wu_pow10]
      rcases List.mem_cons.mp hb with rfl | hb'
      · norm_num
      · rw [List.mem_singleton.mp hb']
        norm_num
    · constructor
      · intro b hb
        rw [List.mem_singleton.mp hb]
        simp only [wu_key_ge, length_wu_pow10]
        norm_num
      · constructor
        · intro b hb
          cases hb
        · exact List.Pairwise.nil
  have hsorted2 : ([⟨[0, 1, 2, 3, 1, 2, 3, 99], -1, (), [], none⟩,
      ⟨[0, 1, 2, 3, 4, 5, 6], -5, (), [], none⟩,
      ⟨[0, 1, 2, 3, 4, 5, 7], -6, (), [], none⟩] :
      List (_Hypothesis Unit)).Pairwise
      (fun a b => wu_key_ge a b = true) := by
    constructor
    · intro b hb
      simp only [wu_key_ge, length_wu_pow10]
      rcases List.mem_cons.mp hb with rfl | hb'
      · norm_num
      · rw [List.mem_singleton.mp hb']
        norm_num
    · constructor
      · intro b hb
        rw [List.mem_singleton.mp hb]
        simp only [wu_key_ge, length_wu_pow10]
        norm_num
      · constructor
        · intro b hb
          cases hb
        · exact List.Pairwise.nil
  refine ⟨hA, ?_, ?_⟩
  · simp only [_clean_beam]
    rw [List.mergeSort_of_sorted hsorted1]
    simp only [clean_loop, hA, hB, hC]
    norm_num
  · simp only [_clean_beam]
    rw [List.mergeSort_of_sorted hsorted2]
    simp only [clean_loop, hA2, hB, hC, List.mergeSort_singleton]
    norm_num

/-- Claim C7.  `_has_repeat_tri s` is true iff some contiguous length-3
subsequence of `s` occurs at two distinct starting positions, and the two
spec examples evaluate as stated.  (As a Lean function it is pure and
deterministic by construction.) -/
theorem has_repeat_tri_iff :
    (∀ s : List Int,
      _has_repeat_tri s = true ↔
        ∃ i j, i < j ∧ j + 3 ≤ s.length ∧
          (s.drop i).take 3 = (s.drop j).take 3) ∧
    _has_repeat_tri [1, 2, 3, 2, 3] = false ∧
    _has_repeat_tri [1, 2, 3, 1, 2, 3] = true := by
  refine ⟨fun s => ?_, by decide, by decide⟩
  set n := s.length - 2 with hn
  set f : Nat → List Int := fun i => (s.drop i).take 3 with hf
  set tl : List (List Int) := (List.range n).map f with htl
  have hlen : tl.length = n := by simp [htl]
  have hget : ∀ j < n, tl[j]? = some (f j) := by
    intro j hj
    simp [htl, List.getElem?_map, List.getElem?_range, hj]
  have hbeq : ∀ (g : List Int) (L : List (List Int)),
      @List.count _ List.instBEq g L =
        @List.count _ instBEqOfDecidableEq g L := by
    intro g L
    simp only [List.count]
    exact List.countP_congr (fun x _ => by simp)
  have hcount : _has_repeat_tri s = true ↔ ¬ tl.Nodup := by
    rw [has_repeat_tri_eq, ← hn, ← hf, ← htl, Bool.not_eq_true',
      List.all_eq_false, List.nodup_iff_count_le_one]
    push_neg
    constructor
    · rintro ⟨g, -, hg⟩
      refine ⟨g, ?_⟩
      rw [← hbeq]
      simpa using hg
    · rintro ⟨g, hg⟩
      have hg2 : 1 < @List.count _ List.instBEq g tl := by rw [hbeq]; exact hg
      refine ⟨g, ?_, by simpa using hg2⟩
      have hpos : 0 < @List.count _ List.instBEq g tl := by omega
      exact List.count_pos_iff.mp hpos
  have hpos : ¬ tl.Nodup ↔ ∃ i j, i < j ∧ j < n ∧ tl[i]? = tl[j]? := by
    rw [List.nodup_iff_getElem?_ne_getElem?]
    push_neg
    constructor
    · rintro ⟨i, j, hij, hjl, he⟩
      exact ⟨i, j, hij, by rwa [hlen] at hjl, he⟩
    · rintro ⟨i, j, hij, hjl, he⟩
      exact ⟨i, j, hij, by rwa [hlen], he⟩
  rw [hcount, hpos]
  constructor
  · rintro ⟨i, j, hij, hjn, he⟩
    have hi : i < n := lt_trans hij hjn
    rw [hget i hi, hget j hjn, Option.some_inj] at he
    exact ⟨i, j, hij, by omega, he⟩
  · rintro ⟨i, j, hij, hjs, he⟩
    have hjn : j < n := by omega
    refine ⟨i, j, hij, hjn, ?_⟩
    rw [hget i (lt_trans hij hjn), hget j hjn, Option.some_inj]
    exact he

